import Mathlib

/-!
# Verification of the small-pointer-vector container (TinyPtrVector)

The repository ships only the unit tests (`unittests/ADT/TinyPtrVectorTest.cpp`);
the container itself (`llvm/ADT/TinyPtrVector.h`) is not part of the sources.
Following the specification, the container is modelled as an explicit closed sum
type over three states (`Empty`, `Single`, `Many`), where the `Many` state holds
a handle into an explicit heap of owned backing arrays.  The heap makes
ownership, aliasing and release observable, so copy/move independence and the
"no release on moved-from destruction" guarantees are genuine theorems rather
than artifacts of a purely functional embedding.

Elements are modelled as natural numbers standing for pointer values, with `0`
as the reserved null sentinel.  Fallible operations (contract violations)
return `Option`: `none` models an assertion-style failure, which carries no
successor state and therefore performs no observable mutation.
-/

namespace TinyPtrVec

/-- Modelled from the spec: the reserved "empty" sentinel value (a null
pointer); it distinguishes `Empty` from `Single` and can never be a valid
stored element. -/
def sentinel : Nat := 0

/-- Modelled from the spec (missing `llvm/ADT/TinyPtrVector.h`): the three
conceptual states of the container, as an explicit closed sum type.  `Many`
holds a handle into the heap of backing arrays. -/
inductive TPV where
  | Empty : TPV
  | Single : Nat → TPV
  | Many : Nat → TPV
deriving DecidableEq, Repr

/-- Modelled from the spec: the heap of owned backing dynamic arrays.  A cell
is `none` once released.  Handles are indices into `cells`. -/
structure Heap where
  cells : List (Option (List Nat))
deriving DecidableEq, Repr

/-- The empty heap: no backing array has been allocated yet. -/
def Heap.emptyHeap : Heap := ⟨[]⟩

/-- Read the backing array behind a handle; `none` for a released or
never-allocated handle. -/
def Heap.read (h : Heap) (r : Nat) : Option (List Nat) :=
  match h.cells[r]? with
  | some c => c
  | none => none

/-- Allocate a fresh backing array holding `l`; returns the new heap and the
fresh handle. -/
def Heap.alloc (h : Heap) (l : List Nat) : Heap × Nat :=
  (⟨h.cells ++ [some l]⟩, h.cells.length)

/-- Overwrite the backing array behind a live handle. -/
def Heap.write (h : Heap) (r : Nat) (l : List Nat) : Heap :=
  ⟨h.cells.set r (some l)⟩

/-- Release the backing array behind a handle. -/
def Heap.free (h : Heap) (r : Nat) : Heap :=
  ⟨h.cells.set r none⟩

/-- Well-formedness of a container value against a heap: in `Many` the handle
refers to a live backing array. -/
def wfb (h : Heap) : TPV → Bool
  | .Many r => (h.read r).isSome
  | _ => true

/-- Modelled from the spec: `size()` — 0 in `Empty`, 1 in `Single`, the
backing array's size in `Many`. -/
def size (h : Heap) : TPV → Nat
  | .Empty => 0
  | .Single _ => 1
  | .Many r => ((h.read r).getD []).length

/-- Modelled from the spec: `empty()` is `size() == 0`. -/
def emptyq (h : Heap) (v : TPV) : Bool :=
  size h v == 0

/-- The container read as an ordered sequence (what `begin()`/`end()`
iteration observes). -/
def toList (h : Heap) : TPV → List Nat
  | .Empty => []
  | .Single x => [x]
  | .Many r => (h.read r).getD []

/-- Modelled from the spec: `operator[]` — element at `index`, precondition
`0 <= index < size()`; out of range is a contract failure (`none`). -/
def index (h : Heap) (v : TPV) (i : Nat) : Option Nat :=
  match v with
  | .Empty => none
  | .Single x => if i = 0 then some x else none
  | .Many r => ((h.read r).getD [])[i]?

/-- Modelled from the spec: `push_back(value)`.  The value must not equal the
sentinel (contract failure otherwise).  `Empty` stores inline and becomes
`Single`; `Single` allocates a backing array holding the existing inline
element then the new value, becoming `Many`; `Many` appends to the backing
array. -/
def push_back (h : Heap) (v : TPV) (x : Nat) : Option (Heap × TPV) :=
  if x = sentinel then none
  else
    match v with
    | .Empty => some (h, .Single x)
    | .Single a =>
      let p := h.alloc [a, x]
      some (p.1, .Many p.2)
    | .Many r =>
      match h.read r with
      | none => none
      | some l => some (h.write r (l ++ [x]), .Many r)

/-- Modelled from the spec: `pop_back()`.  `Empty` is a contract failure;
`Single` becomes `Empty`; `Many` pops from the backing array and never
demotes to `Single`. -/
def pop_back (h : Heap) : TPV → Option (Heap × TPV)
  | .Empty => none
  | .Single _ => some (h, .Empty)
  | .Many r =>
    match h.read r with
    | none => none
    | some [] => none
    | some (a :: l) => some (h.write r (a :: l).dropLast, .Many r)

/-- Modelled from the spec: `erase(position)`.  The position is modelled as an
index; the precondition is that it is dereferenceable (`i < size()`).  It
removes the element at `i`, shifts subsequent elements left, and returns the
index that now denotes the next element (equal to the new size when the
removed element was last, i.e. `end()`).  `Single` becomes `Empty`; `Many`
delegates to the backing array and never demotes. -/
def eraseAt (h : Heap) (v : TPV) (i : Nat) : Option (Heap × TPV × Nat) :=
  if i < size h v then
    match v with
    | .Empty => none
    | .Single _ => some (h, .Empty, 0)
    | .Many r =>
      match h.read r with
      | none => none
      | some l => some (h.write r (l.take i ++ l.drop (i + 1)), .Many r, i)
  else none

/-- Modelled from the spec: `clear()` — releases any backing array and resets
unconditionally to `Empty`; safe from any state. -/
def clear (h : Heap) : TPV → Heap × TPV
  | .Many r => (h.free r, .Empty)
  | .Empty => (h, .Empty)
  | .Single _ => (h, .Empty)

/-- Modelled from the spec: copy construction — replicates the state; for
`Many` it allocates a new backing array and copies all elements into it, so
the copy owns independent storage. -/
def copyCtor (h : Heap) : TPV → Heap × TPV
  | .Empty => (h, .Empty)
  | .Single x => (h, .Single x)
  | .Many r =>
    let p := h.alloc ((h.read r).getD [])
    (p.1, .Many p.2)

/-- Modelled from the spec: move construction — transfers the inline element
or the backing-array handle to the destination in O(1); the source becomes
`Empty`.  Returns `(destination, new source)`. -/
def moveCtor (v : TPV) : TPV × TPV := (v, .Empty)

/-- Modelled from the spec: the destructor — releases the backing array in
`Many`; a no-op otherwise. -/
def destroy (h : Heap) : TPV → Heap
  | .Many r => h.free r
  | .Empty => h
  | .Single _ => h

/-- Whether the container is in the `Many` (heap-backed) state. -/
def isMany : TPV → Bool
  | .Many _ => true
  | _ => false

/-- Two container values have disjoint heap footprints (they never share a
backing array). -/
def disjointb : TPV → TPV → Bool
  | .Many r, .Many r2 => r ≠ r2
  | _, _ => true

/-- Modelled from the spec: the dual-representation iterator base — a view of
a single inline slot, a delegate to the backing array behind a handle, or the
immediately-empty view used by `Empty`. -/
inductive IterBase where
  | emptyB : IterBase
  | singleB : Nat → IterBase
  | manyB : Nat → IterBase
deriving DecidableEq, Repr

/-- Modelled from the spec: a random-access iterator — an iterator base plus a
position.  Iterator equality is structural. -/
structure Iter where
  base : IterBase
  pos : Nat
deriving DecidableEq, Repr

/-- The iterator base induced by the active representation. -/
def baseOf : TPV → IterBase
  | .Empty => .emptyB
  | .Single x => .singleB x
  | .Many r => .manyB r

/-- Modelled from the spec: `begin()` — position 0 over the active storage. -/
def beginIt (v : TPV) : Iter := ⟨baseOf v, 0⟩

/-- Modelled from the spec: `end()` — position `size()` over the active
storage; for `Empty` it equals `begin()` immediately. -/
def endIt (h : Heap) (v : TPV) : Iter := ⟨baseOf v, size h v⟩

/-- Iterator arithmetic: advance by `n`. -/
def advance (it : Iter) (n : Nat) : Iter := ⟨it.base, it.pos + n⟩

/-- Dereference an iterator; `none` when it is not dereferenceable. -/
def deref (h : Heap) (it : Iter) : Option Nat :=
  match it.base with
  | .emptyB => none
  | .singleB x => if it.pos = 0 then some x else none
  | .manyB r => ((h.read r).getD [])[it.pos]?

/-- A `push_back`/`pop_back` call in an interleaved sequence. -/
inductive Op where
  | push : Nat → Op
  | pop : Op
deriving DecidableEq, Repr

/-- One call applied to the container state. -/
def step (s : Heap × TPV) : Op → Option (Heap × TPV)
  | .push x => push_back s.1 s.2 x
  | .pop => pop_back s.1 s.2

/-- Run an interleaved `push_back`/`pop_back` sequence on the container;
`none` as soon as a call violates its precondition. -/
def runTPV (s : Heap × TPV) : List Op → Option (Heap × TPV)
  | [] => some s
  | op :: ops =>
    match step s op with
    | none => none
    | some s2 => runTPV s2 ops

/-- The reference dynamic array executing one call. -/
def refStep (l : List Nat) : Op → Option (List Nat)
  | .push x => if x = sentinel then none else some (l ++ [x])
  | .pop =>
    match l with
    | [] => none
    | _ :: _ => some l.dropLast

/-- Run the identical call sequence on the reference dynamic array. -/
def runRef (l : List Nat) : List Op → Option (List Nat)
  | [] => some l
  | op :: ops =>
    match refStep l op with
    | none => none
    | some l2 => runRef l2 ops

/-- Run a sequence of `push_back` calls. -/
def pushAll (s : Heap × TPV) : List Nat → Option (Heap × TPV)
  | [] => some s
  | x :: xs =>
    match push_back s.1 s.2 x with
    | none => none
    | some s2 => pushAll s2 xs

/-- Any mutator of the interface: `push_back`, `pop_back`, `erase`, `clear`. -/
inductive MutOp where
  | push : Nat → MutOp
  | pop : MutOp
  | eraseM : Nat → MutOp
  | clearM : MutOp
deriving DecidableEq, Repr

/-- Apply one mutator to the container state (`erase` discards the returned
iterator; `clear` always succeeds). -/
def mutStep (s : Heap × TPV) : MutOp → Option (Heap × TPV)
  | .push x => push_back s.1 s.2 x
  | .pop => pop_back s.1 s.2
  | .eraseM i => (eraseAt s.1 s.2 i).map (fun t => (t.1, t.2.1))
  | .clearM => some (clear s.1 s.2)

/-- A shrinking call: `pop_back` or `erase` at an index. -/
inductive ShrinkOp where
  | popS : ShrinkOp
  | eraseS : Nat → ShrinkOp
deriving DecidableEq, Repr

/-- Apply one shrinking call. -/
def shrinkStep (s : Heap × TPV) : ShrinkOp → Option (Heap × TPV)
  | .popS => pop_back s.1 s.2
  | .eraseS i => (eraseAt s.1 s.2 i).map (fun t => (t.1, t.2.1))

/-- Run a sequence of `pop_back`/`erase` calls. -/
def runShrink (s : Heap × TPV) : List ShrinkOp → Option (Heap × TPV)
  | [] => some s
  | op :: ops =>
    match shrinkStep s op with
    | none => none
    | some s2 => runShrink s2 ops

/-! ## Heap lemmas -/

theorem read_isSome_lt {h : Heap} {r : Nat} (hr : (h.read r).isSome) :
    r < h.cells.length := by
  by_contra hlt
  push_neg at hlt
  unfold Heap.read at hr
  rw [List.getElem?_eq_none hlt] at hr
  simp at hr

theorem read_write_self {h : Heap} {r : Nat} (l : List Nat)
    (hr : r < h.cells.length) : (h.write r l).read r = some l := by
  unfold Heap.write Heap.read
  rw [List.getElem?_set_eq_of_lt _ hr]

theorem read_write_ne {h : Heap} {r r2 : Nat} (l : List Nat) (hne : r ≠ r2) :
    (h.write r l).read r2 = h.read r2 := by
  unfold Heap.write Heap.read
  rw [List.getElem?_set_ne hne]

theorem read_free_ne {h : Heap} {r r2 : Nat} (hne : r ≠ r2) :
    (h.free r).read r2 = h.read r2 := by
  unfold Heap.free Heap.read
  rw [List.getElem?_set_ne hne]

theorem read_alloc_self (h : Heap) (l : List Nat) :
    (h.alloc l).1.read (h.alloc l).2 = some l := by
  unfold Heap.alloc Heap.read
  rw [List.getElem?_concat_length]

theorem read_alloc_ne {h : Heap} {r : Nat} (l : List Nat)
    (hne : r ≠ h.cells.length) : (h.alloc l).1.read r = h.read r := by
  unfold Heap.alloc Heap.read
  rcases Nat.lt_or_ge r h.cells.length with hlt | hge
  · rw [List.getElem?_append_left hlt]
  · rw [List.getElem?_eq_none hge, List.getElem?_eq_none (by simp; omega)]

theorem length_write (h : Heap) (r : Nat) (l : List Nat) :
    (h.write r l).cells.length = h.cells.length := by
  unfold Heap.write
  exact List.length_set h.cells r (some l)

theorem length_alloc (h : Heap) (l : List Nat) :
    (h.alloc l).1.cells.length = h.cells.length + 1 := by
  unfold Heap.alloc
  simp

/-! ## Abstraction lemmas: each operation against the observed sequence -/

theorem size_eq_length (h : Heap) (v : TPV) : size h v = (toList h v).length := by
  cases v <;> simp [size, toList]

theorem push_back_none_iff (h : Heap) (v : TPV) (x : Nat) (hwf : wfb h v = true) :
    push_back h v x = none ↔ x = sentinel := by
  constructor
  · intro hn
    by_contra hx
    cases v with
    | Empty => simp [push_back, hx] at hn
    | Single a => simp [push_back, hx] at hn
    | Many r =>
      simp only [wfb] at hwf
      rcases Option.isSome_iff_exists.mp hwf with ⟨l, hl⟩
      simp [push_back, hx, hl] at hn
  · intro hx
    simp [push_back, hx]

theorem push_back_sound {h : Heap} {v : TPV} {x : Nat} {h2 : Heap} {v2 : TPV}
    (hwf : wfb h v = true) (hs : push_back h v x = some (h2, v2)) :
    toList h2 v2 = toList h v ++ [x] ∧ wfb h2 v2 = true := by
  by_cases hx : x = sentinel
  · simp [push_back, hx] at hs
  cases v with
  | Empty =>
    simp [push_back, hx] at hs
    obtain ⟨rfl, rfl⟩ := hs
    simp [toList, wfb]
  | Single a =>
    simp [push_back, hx] at hs
    obtain ⟨rfl, rfl⟩ := hs
    constructor
    · simp [toList, read_alloc_self h [a, x]]
    · simp [wfb, read_alloc_self h [a, x]]
  | Many r =>
    simp only [wfb] at hwf
    rcases Option.isSome_iff_exists.mp hwf with ⟨l, hl⟩
    have hr : r < h.cells.length := read_isSome_lt (by simp [hl])
    simp [push_back, hx, hl] at hs
    obtain ⟨rfl, rfl⟩ := hs
    constructor
    · simp [toList, read_write_self (l ++ [x]) hr, hl]
    · simp [wfb, read_write_self (l ++ [x]) hr]

theorem pop_back_none_of_empty {h : Heap} {v : TPV} (hz : size h v = 0) :
    pop_back h v = none := by
  cases v with
  | Empty => rfl
  | Single a => simp [size] at hz
  | Many r =>
    simp only [size] at hz
    cases hl : h.read r with
    | none => simp [pop_back, hl]
    | some l =>
      rw [hl] at hz
      simp only [Option.getD_some, List.length_eq_zero] at hz
      subst hz
      simp [pop_back, hl]

theorem pop_back_sound {h : Heap} {v : TPV} {h2 : Heap} {v2 : TPV}
    (hwf : wfb h v = true) (hs : pop_back h v = some (h2, v2)) :
    toList h2 v2 = (toList h v).dropLast ∧ wfb h2 v2 = true ∧
      0 < size h v := by
  cases v with
  | Empty => simp [pop_back] at hs
  | Single a =>
    simp [pop_back] at hs
    obtain ⟨rfl, rfl⟩ := hs
    simp [toList, wfb, size]
  | Many r =>
    simp only [wfb] at hwf
    rcases Option.isSome_iff_exists.mp hwf with ⟨l, hl⟩
    have hr : r < h.cells.length := read_isSome_lt (by simp [hl])
    cases l with
    | nil => simp [pop_back, hl] at hs
    | cons a l =>
      simp [pop_back, hl] at hs
      obtain ⟨rfl, rfl⟩ := hs
      refine ⟨?_, ?_, ?_⟩
      · simp [toList, read_write_self ((a :: l).dropLast) hr, hl]
      · simp [wfb, read_write_self ((a :: l).dropLast) hr]
      · simp [size, hl]

theorem pop_back_some_of_pos {h : Heap} {v : TPV} (hwf : wfb h v = true)
    (hp : 0 < size h v) : ∃ s, pop_back h v = some s := by
  cases v with
  | Empty => simp [size] at hp
  | Single a => exact ⟨(h, .Empty), rfl⟩
  | Many r =>
    simp only [wfb] at hwf
    rcases Option.isSome_iff_exists.mp hwf with ⟨l, hl⟩
    cases l with
    | nil => simp [size, hl] at hp
    | cons a l =>
      exact ⟨(h.write r (a :: l).dropLast, .Many r), by simp [pop_back, hl]⟩

theorem eraseAt_sound {h : Heap} {v : TPV} {i : Nat}
    (hwf : wfb h v = true) (hi : i < size h v) :
    ∃ h2 v2, eraseAt h v i = some (h2, v2, i) ∧
      toList h2 v2 = (toList h v).take i ++ (toList h v).drop (i + 1) ∧
      wfb h2 v2 = true ∧ (isMany v = true → isMany v2 = true) := by
  cases v with
  | Empty => simp [size] at hi
  | Single a =>
    simp only [size] at hi
    interval_cases i
    exact ⟨h, .Empty, by simp [eraseAt, size], by simp [toList], by simp [wfb],
      by simp [isMany]⟩
  | Many r =>
    simp only [wfb] at hwf
    rcases Option.isSome_iff_exists.mp hwf with ⟨l, hl⟩
    have hr : r < h.cells.length := read_isSome_lt (by simp [hl])
    refine ⟨h.write r (l.take i ++ l.drop (i + 1)), .Many r, ?_, ?_, ?_, ?_⟩
    · simp [eraseAt, hi, hl]
    · simp [toList, read_write_self (l.take i ++ l.drop (i + 1)) hr, hl]
    · simp [wfb, read_write_self (l.take i ++ l.drop (i + 1)) hr]
    · simp [isMany]

theorem eraseAt_none_of_ge {h : Heap} {v : TPV} {i : Nat}
    (hi : size h v ≤ i) : eraseAt h v i = none := by
  unfold eraseAt
  rw [if_neg (by omega)]

theorem clear_sound (h : Heap) (v : TPV) :
    (clear h v).2 = .Empty ∧ wfb (clear h v).1 (clear h v).2 = true := by
  cases v <;> simp [clear, wfb]

/-! ## Iterator lemmas -/

theorem deref_advance_beginIt (h : Heap) (v : TPV) (i : Nat) :
    deref h (advance (beginIt v) i) = (toList h v)[i]? := by
  cases v with
  | Empty => simp [deref, advance, beginIt, baseOf, toList]
  | Single x => cases i <;> simp [deref, advance, beginIt, baseOf, toList]
  | Many r => simp [deref, advance, beginIt, baseOf, toList]

theorem index_eq_getElem? (h : Heap) (v : TPV) (i : Nat) :
    index h v i = (toList h v)[i]? := by
  cases v with
  | Empty => simp [index, toList]
  | Single x => cases i <;> simp [index, toList]
  | Many r => simp [index, toList]

/-! ## Simulation against the reference dynamic array -/

theorem step_sim {s : Heap × TPV} {l : List Nat} (habs : toList s.1 s.2 = l)
    (hwf : wfb s.1 s.2 = true) (op : Op) :
    (step s op).map (fun s2 => toList s2.1 s2.2) = refStep l op ∧
      ∀ s2, step s op = some s2 → wfb s2.1 s2.2 = true := by
  cases op with
  | push x =>
    by_cases hx : x = sentinel
    · subst hx
      have hn : push_back s.1 s.2 sentinel = none := by
        rw [push_back_none_iff _ _ _ hwf]
      refine ⟨?_, ?_⟩
      · simp [step, hn, refStep]
      · intro s2 hs2
        simp [step, hn] at hs2
    · have hne : push_back s.1 s.2 x ≠ none := by
        rw [Ne, push_back_none_iff _ _ _ hwf]; exact hx
      cases hps : push_back s.1 s.2 x with
      | none => exact absurd hps hne
      | some s2 =>
        obtain ⟨h2, v2⟩ := s2
        obtain ⟨ht, hw⟩ := push_back_sound hwf hps
        refine ⟨?_, ?_⟩
        · simp [step, hps, refStep, hx, ht, habs]
        · intro s3 hs3
          simp [step, hps] at hs3
          rw [← hs3]
          exact hw
  | pop =>
    cases hl : l with
    | nil =>
      have hz : size s.1 s.2 = 0 := by
        rw [size_eq_length, habs, hl]
        rfl
      refine ⟨?_, ?_⟩
      · simp [step, pop_back_none_of_empty hz, refStep]
      · intro s2 hs2
        simp [step, pop_back_none_of_empty hz] at hs2
    | cons a l2 =>
      have hp : 0 < size s.1 s.2 := by
        rw [size_eq_length, habs, hl]
        simp
      obtain ⟨s2, hps⟩ := pop_back_some_of_pos hwf hp
      obtain ⟨h2, v2⟩ := s2
      obtain ⟨ht, hw, _⟩ := pop_back_sound hwf hps
      refine ⟨?_, ?_⟩
      · simp [step, hps, refStep, ht, habs, hl]
      · intro s3 hs3
        simp [step, hps] at hs3
        rw [← hs3]
        exact hw

theorem runTPV_sim {s : Heap × TPV} {l : List Nat} (habs : toList s.1 s.2 = l)
    (hwf : wfb s.1 s.2 = true) (ops : List Op) :
    (runTPV s ops).map (fun s2 => toList s2.1 s2.2) = runRef l ops := by
  induction ops generalizing s l with
  | nil => simp [runTPV, runRef, habs]
  | cons op ops ih =>
    obtain ⟨hmap, hwf2⟩ := step_sim habs hwf op
    cases hst : step s op with
    | none =>
      rw [hst] at hmap
      simp only [Option.map_none'] at hmap
      simp [runTPV, runRef, hst, ← hmap]
    | some s2 =>
      rw [hst] at hmap
      simp only [Option.map_some'] at hmap
      simp only [runTPV, runRef, hst, ← hmap]
      exact ih rfl (hwf2 s2 hst)

theorem pushAll_sound {s : Heap × TPV} {l : List Nat} (habs : toList s.1 s.2 = l)
    (hwf : wfb s.1 s.2 = true) (xs : List Nat) :
    (∀ x ∈ xs, x ≠ sentinel) →
      ∃ s2, pushAll s xs = some s2 ∧ toList s2.1 s2.2 = l ++ xs ∧
        wfb s2.1 s2.2 = true := by
  induction xs generalizing s l with
  | nil =>
    intro _
    exact ⟨s, by simp [pushAll], by simp [habs], hwf⟩
  | cons x xs ih =>
    intro hx
    have hx0 : x ≠ sentinel := hx x (by simp)
    have hne : push_back s.1 s.2 x ≠ none := by
      rw [Ne, push_back_none_iff _ _ _ hwf]; exact hx0
    cases hps : push_back s.1 s.2 x with
    | none => exact absurd hps hne
    | some s2 =>
      obtain ⟨h2, v2⟩ := s2
      obtain ⟨ht, hw⟩ := push_back_sound hwf hps
      obtain ⟨s3, h1, hl3, h3⟩ :=
        ih (s := (h2, v2)) ht hw (fun y hy => hx y (by simp [hy]))
      refine ⟨s3, by simp [pushAll, hps, h1], ?_, h3⟩
      rw [hl3, habs]
      simp

/-! ## Frame lemmas: a mutation touches only the mutated container's cells -/

theorem mutStep_read_frame {s : Heap × TPV} {op : MutOp} {h2 : Heap} {v2 : TPV}
    (hs : mutStep s op = some (h2, v2)) {r : Nat}
    (hlt : r < s.1.cells.length)
    (hne : ∀ rv, s.2 = TPV.Many rv → r ≠ rv) :
    h2.read r = s.1.read r := by
  obtain ⟨h, v⟩ := s
  simp only at hlt hne
  cases op with
  | push x =>
    by_cases hx : x = sentinel
    · simp [mutStep, push_back, hx] at hs
    · cases v with
      | Empty =>
        simp [mutStep, push_back, hx] at hs
        obtain ⟨rfl, rfl⟩ := hs
        rfl
      | Single a =>
        simp [mutStep, push_back, hx] at hs
        obtain ⟨rfl, rfl⟩ := hs
        exact read_alloc_ne _ (Nat.ne_of_lt hlt)
      | Many rv =>
        cases hrd : h.read rv with
        | none => simp [mutStep, push_back, hx, hrd] at hs
        | some l =>
          simp [mutStep, push_back, hx, hrd] at hs
          obtain ⟨rfl, rfl⟩ := hs
          exact read_write_ne _ (Ne.symm (hne rv rfl))
  | pop =>
    cases v with
    | Empty => simp [mutStep, pop_back] at hs
    | Single a =>
      simp [mutStep, pop_back] at hs
      obtain ⟨rfl, rfl⟩ := hs
      rfl
    | Many rv =>
      cases hrd : h.read rv with
      | none => simp [mutStep, pop_back, hrd] at hs
      | some l =>
        cases l with
        | nil => simp [mutStep, pop_back, hrd] at hs
        | cons a l2 =>
          simp [mutStep, pop_back, hrd] at hs
          obtain ⟨rfl, rfl⟩ := hs
          exact read_write_ne _ (Ne.symm (hne rv rfl))
  | eraseM i =>
    by_cases hi : i < size h v
    · cases v with
      | Empty => simp [size] at hi
      | Single a =>
        simp [mutStep, eraseAt, hi] at hs
        obtain ⟨rfl, rfl⟩ := hs
        rfl
      | Many rv =>
        cases hrd : h.read rv with
        | none => simp [mutStep, eraseAt, hi, hrd] at hs
        | some l =>
          simp [mutStep, eraseAt, hi, hrd] at hs
          obtain ⟨rfl, rfl⟩ := hs
          exact read_write_ne _ (Ne.symm (hne rv rfl))
    · simp [mutStep, eraseAt, hi] at hs
  | clearM =>
    cases v with
    | Empty =>
      simp [mutStep, clear] at hs
      obtain ⟨rfl, rfl⟩ := hs
      rfl
    | Single a =>
      simp [mutStep, clear] at hs
      obtain ⟨rfl, rfl⟩ := hs
      rfl
    | Many rv =>
      simp [mutStep, clear] at hs
      obtain ⟨rfl, rfl⟩ := hs
      exact read_free_ne (Ne.symm (hne rv rfl))

theorem mutStep_toList_frame {s : Heap × TPV} {c : TPV} {op : MutOp}
    {h2 : Heap} {v2 : TPV} (hs : mutStep s op = some (h2, v2))
    (hwfc : wfb s.1 c = true) (hdis : disjointb c s.2 = true) :
    toList h2 c = toList s.1 c ∧ size h2 c = size s.1 c := by
  have key : toList h2 c = toList s.1 c := by
    cases c with
    | Empty => rfl
    | Single x => rfl
    | Many rc =>
      have hlt : rc < s.1.cells.length :=
        read_isSome_lt (by simpa [wfb] using hwfc)
      have hne : ∀ rv, s.2 = TPV.Many rv → rc ≠ rv := by
        intro rv hv
        have := hdis
        rw [hv] at this
        simpa [disjointb] using this
      have hfr := mutStep_read_frame hs hlt hne
      simp [toList, hfr]
  refine ⟨key, ?_⟩
  rw [size_eq_length, size_eq_length, key]

theorem copyCtor_spec {h : Heap} {v : TPV} (hwf : wfb h v = true) :
    toList (copyCtor h v).1 (copyCtor h v).2 = toList h v ∧
    wfb (copyCtor h v).1 (copyCtor h v).2 = true ∧
    wfb (copyCtor h v).1 v = true ∧
    disjointb (copyCtor h v).2 v = true ∧
    disjointb v (copyCtor h v).2 = true ∧
    toList (copyCtor h v).1 v = toList h v := by
  cases v with
  | Empty => exact ⟨rfl, rfl, rfl, rfl, rfl, rfl⟩
  | Single x => exact ⟨rfl, rfl, rfl, rfl, rfl, rfl⟩
  | Many r =>
    have hlt : r < h.cells.length := read_isSome_lt (by simpa [wfb] using hwf)
    have hro : (h.alloc ((h.read r).getD [])).1.read r = h.read r :=
      read_alloc_ne _ (Nat.ne_of_lt hlt)
    refine ⟨?_, ?_, ?_, ?_, ?_, ?_⟩
    · simp [copyCtor, toList, read_alloc_self]
    · simp [copyCtor, wfb, read_alloc_self]
    · simp [copyCtor, wfb, hro]
      simpa [wfb] using hwf
    · simp [copyCtor, disjointb]
      exact Ne.symm (Nat.ne_of_lt hlt)
    · simp [copyCtor, disjointb]
      exact Nat.ne_of_lt hlt
    · simp [copyCtor, toList, hro]

/-! ## The claims -/

/-- C1: every interleaved `push_back`/`pop_back` sequence applied to a
default-constructed container (with `pop_back` requiring `size() > 0` — a
violating call fails in both models) produces, read as an ordered sequence,
exactly what the reference dynamic array produces for the identical call
sequence; in particular pushing `[a,b,c,d,e]`, popping twice and pushing two
fresh values `[x,y]` yields exactly `[a,b,c,x,y]`. -/
theorem c1_push_pop_refines_reference (ops : List Op)
    (a b c d e x y : Nat) (ha : a ≠ sentinel) (hb : b ≠ sentinel)
    (hc : c ≠ sentinel) (hd : d ≠ sentinel) (he : e ≠ sentinel)
    (hx : x ≠ sentinel) (hy : y ≠ sentinel) :
    (runTPV (Heap.emptyHeap, TPV.Empty) ops).map (fun s => toList s.1 s.2) =
      runRef [] ops ∧
    (runTPV (Heap.emptyHeap, TPV.Empty)
        [Op.push a, Op.push b, Op.push c, Op.push d, Op.push e, Op.pop, Op.pop,
          Op.push x, Op.push y]).map (fun s => toList s.1 s.2) =
      some [a, b, c, x, y] := by
  refine ⟨runTPV_sim (s := (Heap.emptyHeap, TPV.Empty)) (l := []) rfl rfl ops, ?_⟩
  rw [runTPV_sim (s := (Heap.emptyHeap, TPV.Empty)) (l := []) rfl rfl _]
  simp [runRef, refStep, ha, hb, hc, hd, he, hx, hy, List.dropLast]

/-- Witness for C1 at a concrete call sequence and concrete values. -/
theorem c1_push_pop_refines_reference_witness :
    (runTPV (Heap.emptyHeap, TPV.Empty) [Op.push 1, Op.pop]).map
        (fun s => toList s.1 s.2) = runRef [] [Op.push 1, Op.pop] ∧
    (runTPV (Heap.emptyHeap, TPV.Empty)
        [Op.push 1, Op.push 2, Op.push 3, Op.push 4, Op.push 5, Op.pop, Op.pop,
          Op.push 6, Op.push 7]).map (fun s => toList s.1 s.2) =
      some [1, 2, 3, 6, 7] :=
  ⟨(c1_push_pop_refines_reference [Op.push 1, Op.pop] 1 2 3 4 5 6 7
      (by decide) (by decide) (by decide) (by decide) (by decide) (by decide)
      (by decide)).1,
    (c1_push_pop_refines_reference [Op.push 1, Op.pop] 1 2 3 4 5 6 7
      (by decide) (by decide) (by decide) (by decide) (by decide) (by decide)
      (by decide)).2⟩

/-- C2: any sequence of `n` non-sentinel `push_back` calls from a
default-constructed container succeeds; afterwards `size()` is `n` and
iterating from `begin()` to `end()` yields exactly the pushed values in push
order (crossing the `Empty→Single` and `Single→Many` transitions without
reordering). -/
theorem c2_push_sequence_size_and_order (xs : List Nat)
    (hx : ∀ x ∈ xs, x ≠ sentinel) :
    ∃ s2, pushAll (Heap.emptyHeap, TPV.Empty) xs = some s2 ∧
      size s2.1 s2.2 = xs.length ∧ toList s2.1 s2.2 = xs ∧
      (∀ i, deref s2.1 (advance (beginIt s2.2) i) = xs[i]?) ∧
      advance (beginIt s2.2) (size s2.1 s2.2) = endIt s2.1 s2.2 := by
  obtain ⟨s2, h1, h2, h3⟩ :=
    pushAll_sound (s := (Heap.emptyHeap, TPV.Empty)) (l := []) rfl rfl xs hx
  rw [List.nil_append] at h2
  refine ⟨s2, h1, ?_, h2, ?_, ?_⟩
  · rw [size_eq_length, h2]
  · intro i
    rw [deref_advance_beginIt, h2]
  · simp [advance, beginIt, endIt]

/-- Witness for C2 at a concrete push sequence. -/
theorem c2_push_sequence_size_and_order_witness :
    ∃ s2, pushAll (Heap.emptyHeap, TPV.Empty) [5, 8, 13] = some s2 ∧
      size s2.1 s2.2 = [5, 8, 13].length ∧ toList s2.1 s2.2 = [5, 8, 13] ∧
      (∀ i, deref s2.1 (advance (beginIt s2.2) i) = [5, 8, 13][i]?) ∧
      advance (beginIt s2.2) (size s2.1 s2.2) = endIt s2.1 s2.2 :=
  c2_push_sequence_size_and_order [5, 8, 13] (by decide)

/-- C3: `erase` at a dereferenceable position `i` of a non-empty container
removes exactly the element at `i` (subsequent elements shift left by one,
preserving relative order), decreases the size by exactly one, and returns
the position that now denotes position `i` — which equals the new size
(`end()`) when the removed element was last; erasing the sole element of a
`Single` container leaves it `Empty` and returns `end()`. -/
theorem c3_erase_removes_at_position (h : Heap) (v : TPV) (i : Nat)
    (hwf : wfb h v = true) (hi : i < size h v) :
    ∃ h2 v2 j, eraseAt h v i = some (h2, v2, j) ∧
      toList h2 v2 = (toList h v).take i ++ (toList h v).drop (i + 1) ∧
      size h2 v2 = size h v - 1 ∧
      j = i ∧
      (i + 1 = size h v → j = size h2 v2) ∧
      (∀ x, v = TPV.Single x → v2 = TPV.Empty ∧ j = size h2 v2) := by
  obtain ⟨h2, v2, heq, ht, hw, _⟩ := eraseAt_sound hwf hi
  have hsz : size h2 v2 = size h v - 1 := by
    rw [size_eq_length, size_eq_length, ht]
    rw [size_eq_length] at hi
    simp [List.length_take, List.length_drop]
    omega
  refine ⟨h2, v2, i, heq, ht, hsz, rfl, ?_, ?_⟩
  · intro hlast
    omega
  · intro x hv
    subst hv
    have hi0 : i = 0 := Nat.lt_one_iff.mp (by simpa [size] using hi)
    subst hi0
    simp [eraseAt, size] at heq
    obtain ⟨rfl, rfl⟩ := heq
    exact ⟨rfl, by simp [size]⟩

/-- Witness for C3: erasing position 1 of a `Many`-state container. -/
theorem c3_erase_removes_at_position_witness :
    wfb (Heap.mk [some [4, 5, 6]]) (TPV.Many 0) = true ∧
    1 < size (Heap.mk [some [4, 5, 6]]) (TPV.Many 0) ∧
    ∃ h2 v2 j, eraseAt (Heap.mk [some [4, 5, 6]]) (TPV.Many 0) 1 =
        some (h2, v2, j) ∧
      toList h2 v2 =
        (toList (Heap.mk [some [4, 5, 6]]) (TPV.Many 0)).take 1 ++
          (toList (Heap.mk [some [4, 5, 6]]) (TPV.Many 0)).drop 2 ∧
      size h2 v2 = size (Heap.mk [some [4, 5, 6]]) (TPV.Many 0) - 1 ∧
      j = 1 ∧
      (1 + 1 = size (Heap.mk [some [4, 5, 6]]) (TPV.Many 0) →
        j = size h2 v2) ∧
      (∀ x, TPV.Many 0 = TPV.Single x → v2 = TPV.Empty ∧ j = size h2 v2) :=
  ⟨by decide, by decide,
    c3_erase_removes_at_position (Heap.mk [some [4, 5, 6]]) (TPV.Many 0) 1
      (by decide) (by decide)⟩

/-- Helper for C4: one `pop_back`/`erase` step keeps a `Many` container in
the `Many` state. -/
theorem shrinkStep_preserves_many {h : Heap} {v : TPV} {op : ShrinkOp}
    {h3 : Heap} {v3 : TPV} (hst : shrinkStep (h, v) op = some (h3, v3))
    (hm : isMany v = true) : isMany v3 = true := by
  cases v with
  | Empty => simp [isMany] at hm
  | Single a => simp [isMany] at hm
  | Many r =>
    cases op with
    | popS =>
      cases hrd : h.read r with
      | none => simp [shrinkStep, pop_back, hrd] at hst
      | some l =>
        cases l with
        | nil => simp [shrinkStep, pop_back, hrd] at hst
        | cons a l2 =>
          simp [shrinkStep, pop_back, hrd] at hst
          obtain ⟨rfl, rfl⟩ := hst
          rfl
    | eraseS i =>
      by_cases hi : i < size h (TPV.Many r)
      · cases hrd : h.read r with
        | none => simp [size, hrd] at hi
        | some l =>
          simp [shrinkStep, eraseAt, hi, hrd] at hst
          obtain ⟨rfl, rfl⟩ := hst
          rfl
      · simp [shrinkStep, eraseAt, hi] at hst

/-- C4: once the container is in the `Many` state, no sequence of `pop_back`
and `erase` calls ever transitions it back to `Single` (or `Empty`): along
every successful run of shrinking calls the state remains `Many`, even when
only one element is left. -/
theorem c4_many_never_demotes (h : Heap) (v : TPV) (ops : List ShrinkOp)
    (h2 : Heap) (v2 : TPV) (hm : isMany v = true)
    (hr : runShrink (h, v) ops = some (h2, v2)) : isMany v2 = true := by
  induction ops generalizing h v with
  | nil =>
    simp [runShrink] at hr
    obtain ⟨rfl, rfl⟩ := hr
    exact hm
  | cons op ops ih =>
    cases hst : shrinkStep (h, v) op with
    | none => simp [runShrink, hst] at hr
    | some s2 =>
      obtain ⟨h3, v3⟩ := s2
      simp only [runShrink, hst] at hr
      exact ih h3 v3 (shrinkStep_preserves_many hst hm) hr

/-- Witness for C4: popping a two-element `Many` container down to one
element leaves it `Many`. -/
theorem c4_many_never_demotes_witness :
    isMany (TPV.Many 0) = true ∧
    runShrink (Heap.mk [some [1, 2]], TPV.Many 0) [ShrinkOp.popS] =
      some (Heap.mk [some [1]], TPV.Many 0) ∧
    isMany (TPV.Many 0) = true :=
  ⟨by decide, by decide,
    c4_many_never_demotes (Heap.mk [some [1, 2]]) (TPV.Many 0)
      [ShrinkOp.popS] (Heap.mk [some [1]]) (TPV.Many 0)
      (by decide) (by decide)⟩

/-- C5: copy construction of a populated container produces a copy with the
same size and elements in the same order, owning independent storage: any
mutator applied to the copy leaves the original's observed sequence and size
unchanged, and any mutator applied to the original leaves the copy's
observed sequence and size unchanged. -/
theorem c5_copy_independent (h : Heap) (v : TPV) (hwf : wfb h v = true)
    (hpop : 0 < size h v) :
    toList (copyCtor h v).1 (copyCtor h v).2 = toList h v ∧
    size (copyCtor h v).1 (copyCtor h v).2 = size h v ∧
    (∀ op h3 c2, mutStep (copyCtor h v) op = some (h3, c2) →
      toList h3 v = toList h v ∧ size h3 v = size h v) ∧
    (∀ op h3 v3, mutStep ((copyCtor h v).1, v) op = some (h3, v3) →
      toList h3 (copyCtor h v).2 = toList (copyCtor h v).1 (copyCtor h v).2 ∧
      size h3 (copyCtor h v).2 = size (copyCtor h v).1 (copyCtor h v).2) := by
  obtain ⟨hteq, hwfc, hwfv, hdcv, hdvc, htv⟩ := copyCtor_spec hwf
  have hszeq : size (copyCtor h v).1 (copyCtor h v).2 = size h v := by
    rw [size_eq_length, size_eq_length, hteq]
  refine ⟨hteq, hszeq, ?_, ?_⟩
  · intro op h3 c2 hs
    rw [← Prod.mk.eta (p := copyCtor h v)] at hs
    obtain ⟨ht3, hs3⟩ := mutStep_toList_frame hs hwfv hdvc
    constructor
    · rw [ht3]
      exact htv
    · rw [hs3, size_eq_length, size_eq_length, htv]
  · intro op h3 v3 hs
    exact mutStep_toList_frame (s := ((copyCtor h v).1, v)) hs hwfc hdcv

/-- Witness for C5: a two-element `Many` container. -/
theorem c5_copy_independent_witness :
    wfb (Heap.mk [some [1, 2]]) (TPV.Many 0) = true ∧
    0 < size (Heap.mk [some [1, 2]]) (TPV.Many 0) ∧
    toList (copyCtor (Heap.mk [some [1, 2]]) (TPV.Many 0)).1
        (copyCtor (Heap.mk [some [1, 2]]) (TPV.Many 0)).2 =
      toList (Heap.mk [some [1, 2]]) (TPV.Many 0) ∧
    size (copyCtor (Heap.mk [some [1, 2]]) (TPV.Many 0)).1
        (copyCtor (Heap.mk [some [1, 2]]) (TPV.Many 0)).2 =
      size (Heap.mk [some [1, 2]]) (TPV.Many 0) ∧
    (∀ op h3 c2,
      mutStep (copyCtor (Heap.mk [some [1, 2]]) (TPV.Many 0)) op =
          some (h3, c2) →
        toList h3 (TPV.Many 0) = toList (Heap.mk [some [1, 2]]) (TPV.Many 0) ∧
        size h3 (TPV.Many 0) = size (Heap.mk [some [1, 2]]) (TPV.Many 0)) ∧
    (∀ op h3 v3,
      mutStep ((copyCtor (Heap.mk [some [1, 2]]) (TPV.Many 0)).1,
          TPV.Many 0) op = some (h3, v3) →
        toList h3 (copyCtor (Heap.mk [some [1, 2]]) (TPV.Many 0)).2 =
          toList (copyCtor (Heap.mk [some [1, 2]]) (TPV.Many 0)).1
            (copyCtor (Heap.mk [some [1, 2]]) (TPV.Many 0)).2 ∧
        size h3 (copyCtor (Heap.mk [some [1, 2]]) (TPV.Many 0)).2 =
          size (copyCtor (Heap.mk [some [1, 2]]) (TPV.Many 0)).1
            (copyCtor (Heap.mk [some [1, 2]]) (TPV.Many 0)).2) := by
  have := c5_copy_independent (Heap.mk [some [1, 2]]) (TPV.Many 0)
    (by decide) (by decide)
  exact ⟨by decide, by decide, this.1, this.2.1, this.2.2.1, this.2.2.2⟩

/-- C6: move construction leaves the destination holding exactly the source's
former contents in order, leaves the moved-from source `Empty` with
`size() == 0`, and the moved-from source's destruction releases nothing (the
heap — and hence the destination's contents — is untouched). -/
theorem c6_move_semantics (h : Heap) (v : TPV) (hwf : wfb h v = true)
    (hp : 0 < size h v) :
    toList h (moveCtor v).1 = toList h v ∧
    (moveCtor v).2 = TPV.Empty ∧
    size h (moveCtor v).2 = 0 ∧
    destroy h (moveCtor v).2 = h ∧
    toList (destroy h (moveCtor v).2) (moveCtor v).1 = toList h v :=
  ⟨rfl, rfl, rfl, rfl, rfl⟩

/-- Witness for C6: moving a two-element `Many` container. -/
theorem c6_move_semantics_witness :
    wfb (Heap.mk [some [1, 2]]) (TPV.Many 0) = true ∧
    0 < size (Heap.mk [some [1, 2]]) (TPV.Many 0) ∧
    toList (Heap.mk [some [1, 2]]) (moveCtor (TPV.Many 0)).1 =
      toList (Heap.mk [some [1, 2]]) (TPV.Many 0) ∧
    (moveCtor (TPV.Many 0)).2 = TPV.Empty ∧
    size (Heap.mk [some [1, 2]]) (moveCtor (TPV.Many 0)).2 = 0 ∧
    destroy (Heap.mk [some [1, 2]]) (moveCtor (TPV.Many 0)).2 =
      Heap.mk [some [1, 2]] ∧
    toList (destroy (Heap.mk [some [1, 2]]) (moveCtor (TPV.Many 0)).2)
        (moveCtor (TPV.Many 0)).1 =
      toList (Heap.mk [some [1, 2]]) (TPV.Many 0) := by
  have := c6_move_semantics (Heap.mk [some [1, 2]]) (TPV.Many 0)
    (by decide) (by decide)
  exact ⟨by decide, by decide, this.1, this.2.1, this.2.2.1, this.2.2.2.1,
    this.2.2.2.2⟩

/-- C7: `clear()` from any of the three states leaves the container `Empty`:
afterwards `size()` is 0, `empty()` holds, the observed sequence is empty and
`begin() = end()`; on an already-`Empty` container `clear()` is a no-op (it
returns the state unchanged). -/
theorem c7_clear_resets_to_empty (h : Heap) (v : TPV) :
    (clear h v).2 = TPV.Empty ∧
    size (clear h v).1 (clear h v).2 = 0 ∧
    emptyq (clear h v).1 (clear h v).2 = true ∧
    toList (clear h v).1 (clear h v).2 = [] ∧
    beginIt (clear h v).2 = endIt (clear h v).1 (clear h v).2 ∧
    (v = TPV.Empty → clear h v = (h, v)) := by
  cases v <;> simp [clear, size, emptyq, toList, beginIt, endIt, baseOf]

/-- Witness for C7 on a `Many`-state container. -/
theorem c7_clear_resets_to_empty_witness :
    (clear (Heap.mk [some [1, 2]]) (TPV.Many 0)).2 = TPV.Empty ∧
    size (clear (Heap.mk [some [1, 2]]) (TPV.Many 0)).1
      (clear (Heap.mk [some [1, 2]]) (TPV.Many 0)).2 = 0 ∧
    emptyq (clear (Heap.mk [some [1, 2]]) (TPV.Many 0)).1
      (clear (Heap.mk [some [1, 2]]) (TPV.Many 0)).2 = true ∧
    toList (clear (Heap.mk [some [1, 2]]) (TPV.Many 0)).1
      (clear (Heap.mk [some [1, 2]]) (TPV.Many 0)).2 = [] ∧
    beginIt (clear (Heap.mk [some [1, 2]]) (TPV.Many 0)).2 =
      endIt (clear (Heap.mk [some [1, 2]]) (TPV.Many 0)).1
        (clear (Heap.mk [some [1, 2]]) (TPV.Many 0)).2 ∧
    (TPV.Many 0 = TPV.Empty →
      clear (Heap.mk [some [1, 2]]) (TPV.Many 0) =
        (Heap.mk [some [1, 2]], TPV.Many 0)) :=
  c7_clear_resets_to_empty (Heap.mk [some [1, 2]]) (TPV.Many 0)

/-- C8: every contract-violating call fails (`none`) rather than succeeding:
`pop_back` on an empty container, `erase` at `end()` or beyond (which covers
the empty container), `operator[]` out of range, and `push_back` of the
sentinel all return `none` — and a `none` result carries no successor state,
so the container's size and element sequence are exactly what they were
before the violating call. -/
theorem c8_contract_violations_fail (h : Heap) (v : TPV) (i x : Nat) :
    (size h v = 0 → pop_back h v = none) ∧
    (size h v ≤ i → eraseAt h v i = none) ∧
    (size h v ≤ i → index h v i = none) ∧
    (x = sentinel → push_back h v x = none) := by
  refine ⟨fun hz => pop_back_none_of_empty hz,
    fun hi => eraseAt_none_of_ge hi, fun hi => ?_,
    fun hx => by simp [push_back, hx]⟩
  rw [index_eq_getElem?]
  exact List.getElem?_eq_none (by rw [← size_eq_length]; exact hi)

/-- Witness for C8 on the default-constructed container. -/
theorem c8_contract_violations_fail_witness :
    (size Heap.emptyHeap TPV.Empty = 0 →
      pop_back Heap.emptyHeap TPV.Empty = none) ∧
    (size Heap.emptyHeap TPV.Empty ≤ 0 →
      eraseAt Heap.emptyHeap TPV.Empty 0 = none) ∧
    (size Heap.emptyHeap TPV.Empty ≤ 0 →
      index Heap.emptyHeap TPV.Empty 0 = none) ∧
    (0 = sentinel → push_back Heap.emptyHeap TPV.Empty 0 = none) :=
  c8_contract_violations_fail Heap.emptyHeap TPV.Empty 0 0

/-- C9: iterator behavior is independent of the active representation: in
every state, advancing `begin()` by `i < size()` and dereferencing yields
exactly `operator[](i)`, and advancing `begin()` by `size()` yields exactly
`end()`. -/
theorem c9_iterator_representation_independent (h : Heap) (v : TPV) (i : Nat)
    (hi : i < size h v) :
    deref h (advance (beginIt v) i) = index h v i ∧
    advance (beginIt v) (size h v) = endIt h v := by
  refine ⟨?_, by simp [advance, beginIt, endIt]⟩
  rw [deref_advance_beginIt, index_eq_getElem?]

/-- Witness for C9 on a `Many`-state container at position 1. -/
theorem c9_iterator_representation_independent_witness :
    1 < size (Heap.mk [some [7, 9]]) (TPV.Many 0) ∧
    deref (Heap.mk [some [7, 9]]) (advance (beginIt (TPV.Many 0)) 1) =
      index (Heap.mk [some [7, 9]]) (TPV.Many 0) 1 ∧
    advance (beginIt (TPV.Many 0)) (size (Heap.mk [some [7, 9]]) (TPV.Many 0)) =
      endIt (Heap.mk [some [7, 9]]) (TPV.Many 0) :=
  ⟨by decide,
    (c9_iterator_representation_independent (Heap.mk [some [7, 9]])
      (TPV.Many 0) 1 (by decide)).1,
    (c9_iterator_representation_independent (Heap.mk [some [7, 9]])
      (TPV.Many 0) 1 (by decide)).2⟩

/-- C10: copy construction from an `Empty` container replicates the state
without sharing anything, so growing the copy by any number of `push_back`
calls leaves the source `Empty` with `size() == 0` and an empty observed
sequence. -/
theorem c10_copy_of_empty_grows_independently (h : Heap) (xs : List Nat)
    (h3 : Heap) (c2 : TPV)
    (hs : pushAll (copyCtor h TPV.Empty) xs = some (h3, c2)) :
    copyCtor h TPV.Empty = (h, TPV.Empty) ∧
    size h3 TPV.Empty = 0 ∧ toList h3 TPV.Empty = [] ∧
    emptyq h3 TPV.Empty = true :=
  ⟨rfl, rfl, rfl, rfl⟩

/-- Witness for C10: pushing two values onto a copy of an empty container. -/
theorem c10_copy_of_empty_grows_independently_witness :
    pushAll (copyCtor Heap.emptyHeap TPV.Empty) [1, 2] =
      some (Heap.mk [some [1, 2]], TPV.Many 0) ∧
    (copyCtor Heap.emptyHeap TPV.Empty = (Heap.emptyHeap, TPV.Empty) ∧
      size (Heap.mk [some [1, 2]]) TPV.Empty = 0 ∧
      toList (Heap.mk [some [1, 2]]) TPV.Empty = [] ∧
      emptyq (Heap.mk [some [1, 2]]) TPV.Empty = true) :=
  ⟨by decide,
    c10_copy_of_empty_grows_independently Heap.emptyHeap [1, 2]
      (Heap.mk [some [1, 2]]) (TPV.Many 0) (by decide)⟩

end TinyPtrVec
